import Mathlib

/-!
Shallow embedding of the opening-hours pipeline of the BBB repository.

The embedding covers:
* `clean_with_check.py`: `clean_entry`, `normalize_description`,
  `is_valid_entry`, `start_minutes` and the per-weekday body of `main`
  (candidate extraction, validation, dedup, cap, unknown sentinel,
  weekend override, start-time sort), and
* `scraper/scrape_pools_fixed.py`: the fallback span extractor of
  `parse_pool` (weekday chunking and per-chunk entry extraction).

Python strings are modelled as `List Char`; the regular expressions of
the source are translated into explicit character scanners with the
same matching semantics (leftmost match, greediness and the lazy
`.*?`-with-lookahead of the multi-window splitter).  Scanners that do
not recurse structurally take a fuel argument; every call site passes
`length + 1`, which is enough because each step consumes at least one
character.
-/

namespace BBB

abbrev Str := List Char

/-- Python `\s` (the whitespace class) on the character set the pages use. -/
def pyWS (c : Char) : Bool :=
  c = ' ' || c = '\t' || c = '\n' || c = '\r' || c = '\x0b' || c = '\x0c'

/-- Python `str.lower` restricted to the alphabet occurring in the data:
ASCII letters plus the German letters used by the pages. -/
def lowerC (c : Char) : Char :=
  if 'A' ≤ c && c ≤ 'Z' then Char.ofNat (c.toNat + 32)
  else if c = 'Ä' then 'ä'
  else if c = 'Ö' then 'ö'
  else if c = 'Ü' then 'ü'
  else c

def lowerL (s : Str) : Str := s.map lowerC

def lowerS (s : String) : String := String.mk (lowerL s.data)

/-- Test that `needle` is a prefix of `hay` (exact characters). -/
def isPrefixL : Str → Str → Bool
  | [], _ => true
  | _ :: _, [] => false
  | a :: as, b :: bs => a = b && isPrefixL as bs

/-- Python `needle in hay` substring test. -/
def containsL (hay needle : Str) : Bool :=
  isPrefixL needle hay ||
    match hay with
    | [] => false
    | _ :: t => containsL t needle

def containsS (hay needle : String) : Bool := containsL hay.data needle.data

/-- Test that `needle` is a case-insensitive prefix of `hay` (an `re.IGNORECASE` literal). -/
def ciPrefix : Str → Str → Bool
  | [], _ => true
  | _ :: _, [] => false
  | a :: as, b :: bs => lowerC a = lowerC b && ciPrefix as bs

/-- Python `str.strip()`. -/
def stripL (s : Str) : Str :=
  ((s.dropWhile pyWS).reverse.dropWhile pyWS).reverse

/-- The fixed weekday list of `clean_with_check.py` / the scrapers. -/
def WEEKDAYS : List String :=
  ["Montag", "Dienstag", "Mittwoch", "Donnerstag", "Freitag", "Samstag", "Sonntag"]

/-- Python `\w` for this alphabet (used for `\b` word boundaries). -/
def wordChar (c : Char) : Bool :=
  c.isAlpha || c.isDigit || c = '_' ||
    c = 'ä' || c = 'ö' || c = 'ü' || c = 'ß' || c = 'Ä' || c = 'Ö' || c = 'Ü'

/-! ### clean_entry (clean_with_check.py lines 40-69) -/

/-- Embeds the substitution of `^(Montag|...)\s*` by the empty string
(IGNORECASE): strip one leading weekday name together with the whitespace
after it. -/
def stripLeadingWeekday (s : Str) : Str :=
  match WEEKDAYS.find? (fun w => ciPrefix w.data s) with
  | some w => (s.drop w.length).dropWhile pyWS
  | none => s

/-- Head match of `(WD)\b\s+\1\b` (IGNORECASE) used by the duplicated-weekday
collapse; returns the first group text and the rest after the match.
The boundary before the match is checked by the caller. -/
def dupWDMatch (s : Str) : Option (Str × Str) :=
  (WEEKDAYS.find? (fun w => ciPrefix w.data s)).bind fun w =>
    let g1 := s.take w.length
    let r1 := s.drop w.length
    let ws := r1.takeWhile pyWS
    if ws.isEmpty then none
    else
      let r2 := r1.drop ws.length
      if ciPrefix w.data r2 then
        match r2.drop w.length with
        | [] => some (g1, [])
        | c :: t => if wordChar c then none else some (g1, c :: t)
      else none

/-- Embeds the substitution of `\b(WD)\b\s+\1\b` by the first group
(IGNORECASE): a left-to-right scan replacing each non-overlapping match. -/
def collapseDupWD : Nat → Option Char → Str → Str
  | 0, _, s => s
  | _ + 1, _, [] => []
  | fuel + 1, prev, c :: t =>
    let boundary := match prev with | none => true | some p => !wordChar p
    if boundary then
      match dupWDMatch (c :: t) with
      | some (g1, rest) => g1 ++ collapseDupWD fuel (some (g1.getLastD 'g')) rest
      | none => c :: collapseDupWD fuel (some c) t
    else c :: collapseDupWD fuel (some c) t

def isNTR (c : Char) : Bool := c = '\n' || c = '\t' || c = '\r'

/-- Embeds the substitution of `[\n\t\r]+` by one space per run. -/
def ntrCollapse : Bool → Str → Str
  | _, [] => []
  | inRun, c :: t =>
    if isNTR c then
      if inRun then ntrCollapse true t else ' ' :: ntrCollapse true t
    else c :: ntrCollapse false t

/-- Embeds the substitution of `\s+` by one space per whitespace run. -/
def wsCollapse : Bool → Str → Str
  | _, [] => []
  | inRun, c :: t =>
    if pyWS c then
      if inRun then wsCollapse true t else ' ' :: wsCollapse true t
    else c :: wsCollapse false t

/-- The dash class `[–—-]` of `clean_entry`. -/
def isDashAll (c : Char) : Bool := c = '–' || c = '—' || c = '-'

/-- Embeds the substitution of `\s*[–—-]\s*` by the canonical dash. -/
def dashCanon : Nat → Str → Str
  | 0, s => s
  | fuel + 1, s =>
    let w := s.takeWhile pyWS
    match s.drop w.length with
    | d :: r2 =>
      if isDashAll d then ' ' :: '-' :: ' ' :: dashCanon fuel (r2.dropWhile pyWS)
      else
        match s with
        | [] => []
        | c :: t => c :: dashCanon fuel t
    | [] => s

/-- Embeds the substitution of `\s+[Uu]hr\s+` by the canonical time unit. -/
def uhrCanon : Nat → Str → Str
  | 0, s => s
  | _ + 1, [] => []
  | fuel + 1, c :: t =>
    let w := (c :: t).takeWhile pyWS
    if w.isEmpty then c :: uhrCanon fuel t
    else
      match (c :: t).drop w.length with
      | u :: u2 :: u3 :: r3 =>
        if (u = 'U' || u = 'u') && u2 = 'h' && u3 = 'r' then
          let w2 := r3.takeWhile pyWS
          if w2.isEmpty then c :: uhrCanon fuel t
          else ' ' :: 'U' :: 'h' :: 'r' :: ' ' :: uhrCanon fuel (r3.drop w2.length)
        else c :: uhrCanon fuel t
      | _ => c :: uhrCanon fuel t

/-- Embeds the substitution of `([0-9])([Uu]hr)` by the two groups separated
by a space. -/
def digitUhr : Str → Str
  | c :: u :: u2 :: u3 :: t =>
    if c.isDigit && (u = 'U' || u = 'u') && u2 = 'h' && u3 = 'r' then
      c :: ' ' :: u :: u2 :: u3 :: digitUhr t
    else c :: digitUhr (u :: u2 :: u3 :: t)
  | c :: t => c :: digitUhr t
  | [] => []

def isTrailJunk (c : Char) : Bool := c = ',' || c = ';' || c = '.'

/-- Embeds the removal of `[,;\.]+\s*$`: drop a final punctuation run and the
whitespace after it; if the end (after whitespace) has no punctuation the
string is unchanged. -/
def rstripJunk (s : Str) : Str :=
  let r := s.reverse
  let w := r.dropWhile pyWS
  let p := w.dropWhile isTrailJunk
  if p.length = w.length then s else p.reverse

/-- Python `entry.rsplit(chr 32, 1)[0]`: everything before the last space,
or the whole string if it has no space. -/
def beforeLastSpace (s : Str) : Str :=
  if s.any (fun c => c = ' ') then
    (((s.reverse.dropWhile (fun c => c ≠ ' ')).drop 1)).reverse
  else s

/-- The body of `clean_entry` of clean_with_check.py (lines 40-69). -/
def cleanEntryL (s0 : Str) : Str :=
  let e1 := stripL s0
  let e2 := stripL (stripLeadingWeekday e1)
  let e3 := collapseDupWD (e2.length + 1) none e2
  let e4 := ntrCollapse false e3
  let e5 := stripL (wsCollapse false e4)
  let e6 := dashCanon (e5.length + 1) e5
  let e7 := uhrCanon (e6.length + 1) e6
  let e8 := digitUhr e7
  let e9 := rstripJunk e8
  let e10 := if 120 < e9.length then beforeLastSpace (e9.take 120) else e9
  stripL e10

def clean_entry (s : String) : String := String.mk (cleanEntryL s.data)

/-! ### normalize_description (clean_with_check.py lines 72-113) -/

/-- Head match of `\d{1,2}:\d{2}` (two digits preferred, then one);
returns the consumed characters and the rest. -/
def parseHHMM (s : Str) : Option (Str × Str) :=
  match s with
  | a :: b :: c :: d :: e :: r =>
    if a.isDigit && b.isDigit && c = ':' && d.isDigit && e.isDigit then
      some ([a, b, c, d, e], r)
    else if a.isDigit && b = ':' && c.isDigit && d.isDigit then
      some ([a, b, c, d], e :: r)
    else none
  | a :: b :: c :: d :: r =>
    if a.isDigit && b = ':' && c.isDigit && d.isDigit then some ([a, b, c, d], r)
    else none
  | _ => none

/-- The dash class `[-–]` used by the time-pair patterns. -/
def isDashND (c : Char) : Bool := c = '-' || c = '–'

/-- Head match of `\d{1,2}:\d{2}\s*[-–]\s*\d{1,2}:\d{2}`. -/
def parseTR (s : Str) : Option (Str × Str) :=
  (parseHHMM s).bind fun p =>
    let w1 := p.2.takeWhile pyWS
    match p.2.drop w1.length with
    | d :: r3 =>
      if isDashND d then
        let w2 := r3.takeWhile pyWS
        (parseHHMM (r3.drop w2.length)).map fun q =>
          (p.1 ++ w1 ++ [d] ++ w2 ++ q.1, q.2)
      else none
    | [] => none

/-- Search for the time-pair pattern anywhere in the string. -/
def searchTR : Str → Bool
  | [] => false
  | c :: t => (parseTR (c :: t)).isSome || searchTR t

/-- The body of `is_valid_entry` of clean_with_check.py (lines 28-37). -/
def isValidL (e : Str) : Bool :=
  if e.isEmpty || e.length < 8 then false else searchTR e

def is_valid_entry (e : String) : Bool := isValidL e.data

/-- Python `s.split(pat, 1)[0]`: the part before the first occurrence of
`pat`, or all of `s` when `pat` does not occur. -/
def beforeFirst : Str → Str → Str
  | [], _ => []
  | c :: t, pat => if isPrefixL pat (c :: t) then [] else c :: beforeFirst t pat

/-- The ordered description rule table of `normalize_description`
(clean_with_check.py lines 87-109), applied to the free-text suffix. -/
def descRuleL (desc : Str) : Str :=
  let dl := lowerL desc
  if dl.isEmpty then []
  else if containsL dl "eingeschränk".data || containsL dl "eingeschraenk".data ||
      containsL dl "eingeschr".data then
    if containsL dl "öffent".data || containsL dl "offent".data then
      "öffentl. Schwimmen (eingeschr. WF)".data
    else
      "öffentl. Schwimmen (eingeschr. WF)".data
  else if containsL dl "schul".data || containsL dl "verein".data ||
      containsL dl "kurs".data then
    "nur Schul-/Vereins-/Kursbetrieb".data
  else if containsL dl "gemischt".data then "gemischt".data
  else if containsL dl "menschen mit behinderung".data ||
      containsL dl "behinderung".data then
    "Menschen mit Behinderung".data
  else if containsL dl "öffent".data || containsL dl "offent".data then
    "öffentl. Schwimmen".data
  else
    beforeLastSpace ((beforeFirst (beforeFirst desc " Einlass".data) " Badeschluss".data).take 80)

def descRule (desc : String) : String := String.mk (descRuleL desc.data)

/-- The body of `normalize_description` of clean_with_check.py (lines 72-113):
`re.match` of `^(\d{1,2}:\d{2}\s*[-–]\s*\d{1,2}:\d{2}[^\s]*)(?:\s+(.*))?`,
then the rule table on the lowercased suffix. -/
def normDescL (e : Str) : Str :=
  match parseTR e with
  | none => e
  | some p =>
    let ext := p.2.takeWhile (fun c => !pyWS c)
    let r6 := p.2.drop ext.length
    let timePart := stripL (p.1 ++ ext)
    let desc := stripL ((r6.dropWhile pyWS).takeWhile (fun c => c ≠ '\n'))
    let nd := descRuleL desc
    if nd.isEmpty then timePart else timePart ++ (' ' :: nd)

def normalize_description (e : String) : String := String.mk (normDescL e.data)

/-- The full entry normalization of the cleaner: `clean_entry` followed by
`normalize_description` (clean_with_check.py lines 161-163). -/
def N (s : String) : String := normalize_description (clean_entry s)

/-! ### Candidate extraction of `main` (clean_with_check.py lines 139-173) -/

/-- Embeds `raw_entry.split` at semicolons with each part stripped and empties dropped
(line 149). -/
def splitSemiGo : Str → Str → List Str
  | cur, [] => [cur.reverse]
  | cur, c :: t => if c = ';' then cur.reverse :: splitSemiGo [] t else splitSemiGo (c :: cur) t

def semiparts (s : Str) : List Str :=
  ((splitSemiGo [] s).map stripL).filter (fun p => !p.isEmpty)

/-- The lookahead `(?=\d{1,2}:\d{2}\s*[-–]|$)` of the multi-window pattern. -/
def trStart (s : Str) : Bool :=
  match parseHHMM s with
  | some p =>
    match p.2.dropWhile pyWS with
    | d :: _ => isDashND d
    | [] => false
  | none => false

/-- The lazy `.*?` with the lookahead above: the shortest newline-free
prefix whose remainder starts a time range or is the end of input
(`$`, which also matches before a lone final newline). -/
def lazyToTR : Nat → Str → Option (Str × Str)
  | 0, _ => none
  | fuel + 1, s =>
    if trStart s || s.isEmpty || s = ['\n'] then some ([], s)
    else
      match s with
      | [] => some ([], [])
      | '\n' :: _ => none
      | c :: t => (lazyToTR fuel t).map fun p => (c :: p.1, p.2)

/-- Head match of the multi-window pattern (clean_with_check.py line 153):
`(\d{1,2}:\d{2}\s*[-–]\s*\d{1,2}:\d{2}(?:\s+[Uu]hr)?\s*.*?)(?=\d{1,2}:\d{2}\s*[-–]|$)`
with IGNORECASE. -/
def multiMatchAt (s : Str) : Option (Str × Str) :=
  (parseTR s).bind fun p =>
    let w := p.2.takeWhile pyWS
    let afterW := p.2.drop w.length
    let uhrTaken := !w.isEmpty && ciPrefix "uhr".data afterW
    let uhrPart := if uhrTaken then w ++ afterW.take 3 else []
    let r2 := if uhrTaken then afterW.drop 3 else p.2
    let w2 := r2.takeWhile pyWS
    (lazyToTR (r2.length + 1) (r2.drop w2.length)).map fun q =>
      (p.1 ++ uhrPart ++ w2 ++ q.1, q.2)

/-- Embeds `multi_pattern.findall` (clean_with_check.py line 154). -/
def multiFindall : Nat → Str → List Str
  | 0, _ => []
  | _ + 1, [] => []
  | fuel + 1, c :: t =>
    match multiMatchAt (c :: t) with
    | some p => p.1 :: multiFindall fuel p.2
    | none => multiFindall fuel t

/-- Lines 154-158: the split candidates of a semicolon part, or the part
itself when the pattern finds nothing. -/
def candidatesOf (part : Str) : List Str :=
  let ms := multiFindall (part.length + 1) part
  if ms.isEmpty then [part]
  else (ms.map stripL).filter (fun s => !s.isEmpty)

/-- Lines 160-173: clean, normalize, validate and dedup one candidate.
The state is (seen keys, output list). -/
def processCand (st : List Str × List Str) (cand : Str) : List Str × List Str :=
  let ne := normDescL (cleanEntryL cand)
  if isValidL ne then
    let key := lowerL ne
    if key ∈ st.1 then st else (key :: st.1, st.2 ++ [ne])
  else st

def processPart (st : List Str × List Str) (part : Str) : List Str × List Str :=
  (candidatesOf part).foldl processCand st

/-- Lines 139-173: one raw entry.  A raw entry containing the closed
keyword contributes the sentinel directly (lines 143-146). -/
def processRaw (st : List Str × List Str) (raw : Str) : List Str × List Str :=
  if containsL (lowerL raw) "geschlossen".data then (st.1, st.2 ++ ["Geschlossen".data])
  else (semiparts raw).foldl processPart st

def cleanedEntriesL (raws : List Str) : List Str :=
  (raws.foldl processRaw ([], [])).2

/-- The validated, deduplicated entry list of one weekday, before the
plausibility cap (clean_with_check.py lines 136-173). -/
def cleanedEntries (raws : List String) : List String :=
  (cleanedEntriesL (raws.map String.data)).map String.mk

/-! ### Cap, unknown sentinel, weekend override, sort (lines 176-213) -/

def MAX_ENTRIES_PER_DAY : Nat := 4

/-- Lines 176-182: cap to `MAX_ENTRIES_PER_DAY`, then the `?` sentinel for
a day that had no raw data at all and is still empty. -/
def preFinal (raws : List String) : List String :=
  let c := cleanedEntries raws
  let c1 := if MAX_ENTRIES_PER_DAY < c.length then c.take MAX_ENTRIES_PER_DAY else c
  if c1.length = 0 ∧ raws.length = 0 then ["?"] else c1

/-- The public-swimming trigger of the weekend override (line 207). -/
def pubTrig (e : String) : Bool :=
  containsS (lowerS e) "öffent" || containsS (lowerS e) "öffentl"

/-- The restricted-access test of the weekend override (line 208):
entries containing this marker are dropped. -/
def schulFree (e : String) : Bool := !containsS (lowerS e) "nur schul"

/-- Lines 204-208: the weekend override. -/
def weekendFilter (wd : String) (l : List String) : List String :=
  if wd = "Samstag" ∨ wd = "Sonntag" then
    if l.any pubTrig then l.filter schulFree else l
  else l

/-- The key helper of `start_minutes` of clean_with_check.py (lines 198-202): the first
`(\d{1,2}):(\d{2})` occurrence as minutes, `24*60` when absent. -/
def digitsToNat (l : Str) : Nat := l.foldl (fun n c => n * 10 + (c.toNat - 48)) 0

def hmVal (consumed : Str) : Nat :=
  let hs := consumed.takeWhile (fun c => c ≠ ':')
  let ms := (consumed.dropWhile (fun c => c ≠ ':')).drop 1
  digitsToNat hs * 60 + digitsToNat ms

def searchHM : Str → Option Nat
  | [] => none
  | c :: t =>
    match parseHHMM (c :: t) with
    | some p => some (hmVal p.1)
    | none => searchHM t

def start_minutes (e : String) : Nat :=
  match searchHM e.data with
  | some v => v
  | none => 24 * 60

/-- The sort key order of line 211 (`cleaned.sort(key=start_minutes)`,
a stable sort). -/
def rStart (a b : String) : Prop := start_minutes a ≤ start_minutes b

instance : DecidableRel rStart := fun _ _ => Nat.decLe _ _

instance : IsTotal String rStart := ⟨fun _ _ => Nat.le_total _ _⟩

instance : IsTrans String rStart := ⟨fun _ _ _ => Nat.le_trans⟩

/-- The per-weekday body of `main` (clean_with_check.py lines 131-213):
extraction, validation, dedup, cap, unknown sentinel, weekend override
and the final stable start-time sort. -/
def cleanDay (wd : String) (raws : List String) : List String :=
  List.insertionSort rStart (weekendFilter wd (preFinal raws))

/-! ### Fallback span extractor (scraper/scrape_pools_fixed.py lines 87-156) -/

/-- Word-boundary match test of `\b pat \b` at the head of `rest`, with `prev` the character
before it in the full text. -/
def wbHere (pat : Str) (prev : Option Char) (rest : Str) : Bool :=
  (match prev with | none => true | some p => !wordChar p) &&
  ciPrefix pat rest &&
  (match rest.drop pat.length with | [] => true | c :: _ => !wordChar c)

/-- Embeds the case-insensitive word-bounded search of `pat` in `text` with a
start offset: index of the first match at a position `≥ start`. -/
def findWBGo (pat : Str) (start : Nat) : Nat → Option Char → Str → Option Nat
  | _, _, [] => none
  | idx, prev, c :: t =>
    if start ≤ idx && wbHere pat prev (c :: t) then some idx
    else findWBGo pat start (idx + 1) (some c) t

def findWB (pat : Str) (text : Str) (start : Nat) : Option Nat :=
  findWBGo pat start 0 none text

/-- All `\b pat \b` match positions in `text`. -/
def allWBGo (pat : Str) : Nat → Option Char → Str → List Nat
  | _, _, [] => []
  | idx, prev, c :: t =>
    if wbHere pat prev (c :: t) then idx :: allWBGo pat (idx + 1) (some c) t
    else allWBGo pat (idx + 1) (some c) t

def allWB (pat : Str) (text : Str) : List Nat := allWBGo pat 0 none text

/-- Lines 97-104: the first later-in-week weekday (in list order) found at or
after `start` decides the end position; `text.length` if none is found. -/
def firstFutureEnd (future : List String) (text : Str) (start : Nat) : Nat :=
  match future with
  | [] => text.length
  | w :: ws =>
    match findWB w.data text start with
    | some q => q
    | none => firstFutureEnd ws text start

/-- The chunk the fixed scraper captures for the weekday with index `i`
(scrape_pools_fixed.py lines 87-107): the span from the first occurrence of
the weekday token to the position found by `firstFutureEnd`; a list with at
most one element (`[]` when the weekday token does not occur). -/
def codeDayChunks (text : String) (i : Nat) : List String :=
  match WEEKDAYS.drop i with
  | [] => []
  | wd :: future =>
    match findWB wd.data text.data 0 with
    | none => []
    | some p =>
      let endPos := firstFutureEnd future text.data (p + wd.length)
      [String.mk ((text.data.drop p).take (endPos - p))]

/-- Modelled from the spec (§4.3), for comparison with `codeDayChunks`:
"For each Weekday token occurrence in the text (multiple occurrences are
each processed ...), the span from that occurrence up to (but excluding)
the next occurrence of any *other* weekday token — or end of text if
none — is treated as that weekday's section."  Token occurrences use the
same case-insensitive word-boundary convention as the code. -/
def specSpanSections (text : String) (i : Nat) : List String :=
  match WEEKDAYS.drop i with
  | [] => []
  | wd :: _ =>
    let others := WEEKDAYS.filter (fun w => w ≠ wd)
    (allWB wd.data text.data).map fun p =>
      let after := p + wd.length
      let endPos := (others.filterMap (fun w => findWB w.data text.data after)).foldl
        Nat.min text.data.length
      String.mk ((text.data.drop p).take (endPos - p))

/-- The per-match entry cleanup of the fixed scraper (lines 123-150). -/
def rstripSet (s : Str) (set : List Char) : Str :=
  (s.reverse.dropWhile (fun c => set.contains c)).reverse

/-- Python `entry.split()`: whitespace-separated words, no empties. -/
def pyWords : Bool → Str → List Str
  | _, [] => [[]]
  | inWord, c :: t =>
    if pyWS c then
      if inWord then [] :: pyWords false t else pyWords false t
    else
      match pyWords true t with
      | [] => [[c]]
      | w :: ws => (c :: w) :: ws

def pyWordsOf (s : Str) : List Str :=
  ((s.dropWhile pyWS).reverse.dropWhile pyWS).reverse |> pyWords false |>.filter (fun w => !w.isEmpty)

/-- Lines 140-149: greedy word-wise truncation to 150 characters. -/
def truncWords (limit : Nat) : Nat → List Str → List Str
  | _, [] => []
  | acc, w :: rest =>
    if limit < acc + w.length + 1 then []
    else w :: truncWords limit (acc + w.length + 1) rest

/-- Lines 123-150: post-processing of one `time_pattern` match. -/
def procMatch (wd : Str) (m : Str) : Str :=
  let e1 := stripL m
  let e2 := stripL (if ciPrefix wd e1 then (e1.drop wd.length).dropWhile pyWS else e1)
  let e3 := wsCollapse false e2
  let e4 :=
    if containsL (lowerL e3) "uhr".data then e3
    else rstripSet e3 ['.', ',', ':', ';'] ++ " Uhr".data
  let e5 := rstripJunk e4
  if 150 < e5.length then List.intercalate [' '] (truncWords 150 0 (pyWordsOf e5))
  else e5

/-- Head match of the fixed scraper's `time_pattern` (lines 115-118):
`(\d{1,2}:\d{2}\s*[-–]\s*\d{1,2}:\d{2}(?:\s+[Uu]hr)?(?:\s+[^;,\n]{0,80})?)`
with IGNORECASE. -/
def tpMatchAt (s : Str) : Option (Str × Str) :=
  (parseTR s).map fun p =>
    let w := p.2.takeWhile pyWS
    let afterW := p.2.drop w.length
    let uhrTaken := !w.isEmpty && ciPrefix "uhr".data afterW
    let uhrPart := if uhrTaken then w ++ afterW.take 3 else []
    let r2 := if uhrTaken then afterW.drop 3 else p.2
    let w2 := r2.takeWhile pyWS
    if w2.isEmpty then (p.1 ++ uhrPart, r2)
    else
      let body := ((r2.drop w2.length).takeWhile
        (fun c => !(c = ';' || c = ',' || c = '\n'))).take 80
      (p.1 ++ uhrPart ++ w2 ++ body, (r2.drop w2.length).drop body.length)

def tpFindall : Nat → Str → List Str
  | 0, _ => []
  | _ + 1, [] => []
  | fuel + 1, c :: t =>
    match tpMatchAt (c :: t) with
    | some p => p.1 :: tpFindall fuel p.2
    | none => tpFindall fuel t

/-- Lines 109-156 of scrape_pools_fixed.py: the entries extracted from one
weekday chunk.  A chunk containing the closed keyword yields exactly the
`Geschlossen` sentinel; otherwise each `time_pattern` match is cleaned,
validated (length ≥ 10 and a `\d{1,2}:\d{2}` occurrence) and deduplicated
case-insensitively. -/
def chunkEntries (wd : String) (chunk : String) : List String :=
  if containsS (lowerS chunk) "geschlossen" then ["Geschlossen"]
  else
    let step := fun (st : List Str × List Str) (m : Str) =>
      let e := procMatch wd.data m
      if 10 ≤ e.length && (searchHM e).isSome then
        let k := lowerL e
        if k ∈ st.1 then st else (k :: st.1, st.2 ++ [e])
      else st
    (((tpFindall (chunk.data.length + 1) chunk.data).foldl step ([], [])).2).map String.mk

/-! ### Invariant vocabulary and example inputs used by the theorems -/

/-- The closed sentinel as a character list. -/
def G : Str := "Geschlossen".data

/-- Case-insensitive distinctness of two entries (the dedup key relation). -/
def Rne (a b : Str) : Prop := lowerL a ≠ lowerL b

/-- Invariant of the per-day extraction fold: every non-sentinel entry's key
is recorded in `seen`, and the non-sentinel entries are pairwise distinct
case-insensitively. -/
def Inv (st : List Str × List Str) : Prop :=
  (∀ e ∈ st.2, e ≠ G → lowerL e ∈ st.1) ∧
    (st.2.filter (fun e => !(e == G))).Pairwise Rne

/-- Six valid raw entries with descending start times. -/
def rawDesc6 : List String :=
  ["20:00 - 21:00 Uhr a", "19:00 - 20:00 Uhr b", "18:00 - 19:00 Uhr c",
    "17:00 - 18:00 Uhr d", "16:00 - 17:00 Uhr e", "15:00 - 16:00 Uhr f"]

/-- Six valid raw entries with ascending start times. -/
def rawAsc6 : List String :=
  ["15:00 - 16:00 Uhr a", "16:00 - 17:00 Uhr b", "17:00 - 18:00 Uhr c",
    "18:00 - 19:00 Uhr d", "19:00 - 20:00 Uhr e", "20:00 - 21:00 Uhr f"]

/-- The weekend-override example of the spec (testable property 7). -/
def rawWeekend : List String :=
  ["09:00-10:00 Uhr nur Schul-, Vereins-, Kursbetrieb", "09:00-17:00 Uhr öffentl. Schwimmen"]

/-- A digit renaming: a character substitution that fixes every non-digit
character and maps digit characters to digit characters.  No scanner of the
normalization pipeline distinguishes one digit from another, so the whole
pipeline commutes with such substitutions; this carries idempotence of `N`
on one canonical time range with pairwise distinct digits to all canonical
time ranges. -/
def DigitRen (σ : Char → Char) : Prop :=
  (∀ c, c.isDigit = false → σ c = c) ∧ ∀ c, c.isDigit = true → (σ c).isDigit = true

/-- The digit renaming sending the eight reference digits 1-8 to the eight
given characters and fixing every other character. -/
def digitSubst (a b c d e f g h : Char) : Char → Char := fun x =>
  if x = '1' then a else if x = '2' then b else if x = '3' then c else if x = '4' then d
  else if x = '5' then e else if x = '6' then f else if x = '7' then g else if x = '8' then h
  else x

end BBB

namespace BBB

/-! ### Digit-character facts -/

theorem digit_ne_char {x k : Char} (hx : x.isDigit = true) (hk : k.isDigit = false) :
    x ≠ k := by
  intro h
  rw [h, hk] at hx
  exact Bool.false_ne_true hx

theorem digit_val_le {x : Char} (hx : x.isDigit = true) : x.val.toBitVec.toNat ≤ 57 := by
  rw [Char.isDigit, Bool.and_eq_true, decide_eq_true_eq, decide_eq_true_eq] at hx
  have h := hx.2
  rw [UInt32.le_def, BitVec.le_def] at h
  have h57 : (57 : UInt32).toBitVec.toNat = 57 := rfl
  rw [h57] at h
  exact h

theorem pyWS_digit {x : Char} (hx : x.isDigit = true) : pyWS x = false := by
  simp only [pyWS, Bool.or_eq_false_iff, decide_eq_false_iff_not]
  exact ⟨⟨⟨⟨⟨digit_ne_char hx (by decide), digit_ne_char hx (by decide)⟩,
    digit_ne_char hx (by decide)⟩, digit_ne_char hx (by decide)⟩,
    digit_ne_char hx (by decide)⟩, digit_ne_char hx (by decide)⟩

theorem isNTR_digit {x : Char} (hx : x.isDigit = true) : isNTR x = false := by
  simp only [isNTR, Bool.or_eq_false_iff, decide_eq_false_iff_not]
  exact ⟨⟨digit_ne_char hx (by decide), digit_ne_char hx (by decide)⟩,
    digit_ne_char hx (by decide)⟩

theorem isDashAll_digit {x : Char} (hx : x.isDigit = true) : isDashAll x = false := by
  simp only [isDashAll, Bool.or_eq_false_iff, decide_eq_false_iff_not]
  exact ⟨⟨digit_ne_char hx (by decide), digit_ne_char hx (by decide)⟩,
    digit_ne_char hx (by decide)⟩

theorem isDashND_digit {x : Char} (hx : x.isDigit = true) : isDashND x = false := by
  simp only [isDashND, Bool.or_eq_false_iff, decide_eq_false_iff_not]
  exact ⟨digit_ne_char hx (by decide), digit_ne_char hx (by decide)⟩

theorem isTrailJunk_digit {x : Char} (hx : x.isDigit = true) : isTrailJunk x = false := by
  simp only [isTrailJunk, Bool.or_eq_false_iff, decide_eq_false_iff_not]
  exact ⟨⟨digit_ne_char hx (by decide), digit_ne_char hx (by decide)⟩,
    digit_ne_char hx (by decide)⟩

theorem wordChar_digit {x : Char} (hx : x.isDigit = true) : wordChar x = true := by
  simp [wordChar, hx]

theorem lowerC_digit {x : Char} (hx : x.isDigit = true) : lowerC x = x := by
  have hA : ¬('A' ≤ x) := by
    intro h
    rw [Char.le_def, UInt32.le_def, BitVec.le_def] at h
    have h65 : ('A').val.toBitVec.toNat = 65 := rfl
    rw [h65] at h
    have := digit_val_le hx
    omega
  unfold lowerC
  rw [decide_eq_false hA, Bool.false_and, if_neg Bool.false_ne_true,
    if_neg (digit_ne_char hx (by decide)), if_neg (digit_ne_char hx (by decide)),
    if_neg (digit_ne_char hx (by decide))]

theorem isDigit_ofNat_false {n : Nat} (h1 : 97 ≤ n) (h2 : n ≤ 122) :
    (Char.ofNat n).isDigit = false := by
  have hv : n.isValidChar := Or.inl (by omega)
  have ht : (Char.ofNat n).val.toBitVec.toNat = n := by rw [Char.ofNat, dif_pos hv]; rfl
  rw [Char.isDigit]
  have hgt : ¬((Char.ofNat n).val ≤ 57) := by
    rw [UInt32.le_def, BitVec.le_def, ht]
    norm_num
    omega
  simp [hgt]

theorem lowerC_nondigit {x : Char} (hx : x.isDigit = false) : (lowerC x).isDigit = false := by
  unfold lowerC
  by_cases hu : ('A' ≤ x && x ≤ 'Z') = true
  · rw [if_pos hu]
    rw [Bool.and_eq_true, decide_eq_true_eq, decide_eq_true_eq] at hu
    have h1 : (65 : Nat) ≤ x.val.toBitVec.toNat := by
      have := hu.1
      rw [Char.le_def, UInt32.le_def, BitVec.le_def] at this
      exact this
    have h2 : x.val.toBitVec.toNat ≤ (90 : Nat) := by
      have := hu.2
      rw [Char.le_def, UInt32.le_def, BitVec.le_def] at this
      exact this
    have htn : x.toNat = x.val.toBitVec.toNat := rfl
    rw [htn]
    exact isDigit_ofNat_false (by omega) (by omega)
  · rw [if_neg hu]
    split_ifs with hA hO hU
    · decide
    · decide
    · decide
    · exact hx

/-! ### Digit-renaming invariance of the character predicates -/

theorem ren_fix {σ : Char → Char} (hσ : DigitRen σ) {k : Char} (hk : k.isDigit = false) :
    σ k = k := hσ.1 k hk

theorem ren_isDigit {σ : Char → Char} (hσ : DigitRen σ) (c : Char) :
    (σ c).isDigit = c.isDigit := by
  cases hc : c.isDigit with
  | false => rw [hσ.1 c hc]; exact hc
  | true => rw [hσ.2 c hc]

theorem ren_pyWS {σ : Char → Char} (hσ : DigitRen σ) (c : Char) : pyWS (σ c) = pyWS c := by
  cases hc : c.isDigit with
  | false => rw [hσ.1 c hc]
  | true => rw [pyWS_digit (hσ.2 c hc), pyWS_digit hc]

theorem ren_isNTR {σ : Char → Char} (hσ : DigitRen σ) (c : Char) : isNTR (σ c) = isNTR c := by
  cases hc : c.isDigit with
  | false => rw [hσ.1 c hc]
  | true => rw [isNTR_digit (hσ.2 c hc), isNTR_digit hc]

theorem ren_isDashAll {σ : Char → Char} (hσ : DigitRen σ) (c : Char) :
    isDashAll (σ c) = isDashAll c := by
  cases hc : c.isDigit with
  | false => rw [hσ.1 c hc]
  | true => rw [isDashAll_digit (hσ.2 c hc), isDashAll_digit hc]

theorem ren_isDashND {σ : Char → Char} (hσ : DigitRen σ) (c : Char) :
    isDashND (σ c) = isDashND c := by
  cases hc : c.isDigit with
  | false => rw [hσ.1 c hc]
  | true => rw [isDashND_digit (hσ.2 c hc), isDashND_digit hc]

theorem ren_isTrailJunk {σ : Char → Char} (hσ : DigitRen σ) (c : Char) :
    isTrailJunk (σ c) = isTrailJunk c := by
  cases hc : c.isDigit with
  | false => rw [hσ.1 c hc]
  | true => rw [isTrailJunk_digit (hσ.2 c hc), isTrailJunk_digit hc]

theorem ren_wordChar {σ : Char → Char} (hσ : DigitRen σ) (c : Char) :
    wordChar (σ c) = wordChar c := by
  cases hc : c.isDigit with
  | false => rw [hσ.1 c hc]
  | true => rw [wordChar_digit (hσ.2 c hc), wordChar_digit hc]

theorem ren_lowerC {σ : Char → Char} (hσ : DigitRen σ) (c : Char) :
    lowerC (σ c) = σ (lowerC c) := by
  cases hc : c.isDigit with
  | true => rw [lowerC_digit (hσ.2 c hc), lowerC_digit hc]
  | false => rw [hσ.1 c hc, hσ.1 (lowerC c) (lowerC_nondigit hc)]

theorem ren_eq_char {σ : Char → Char} (hσ : DigitRen σ) {k : Char} (hk : k.isDigit = false)
    (c : Char) : (σ c = k) = (c = k) := by
  cases hc : c.isDigit with
  | false => rw [hσ.1 c hc]
  | true =>
    rw [eq_false (digit_ne_char (hσ.2 c hc) hk), eq_false (digit_ne_char hc hk)]

theorem ren_beq_char {σ : Char → Char} (hσ : DigitRen σ) {k : Char} (hk : k.isDigit = false)
    (c : Char) : decide (σ c = k) = decide (c = k) :=
  decide_eq_decide.mpr (iff_of_eq (ren_eq_char hσ hk c))

theorem ren_bne_char {σ : Char → Char} (hσ : DigitRen σ) {k : Char} (hk : k.isDigit = false)
    (c : Char) : decide (σ c ≠ k) = decide (c ≠ k) :=
  decide_eq_decide.mpr (not_congr (iff_of_eq (ren_eq_char hσ hk c)))

/-! ### Digit-renaming invariance of the scanners -/

theorem map_ren_fix {σ : Char → Char} (hσ : DigitRen σ) :
    ∀ {l : Str}, l.all (fun c => !c.isDigit) = true → l.map σ = l := by
  intro l h
  induction l with
  | nil => rfl
  | cons a t ih =>
    simp only [List.all_cons, Bool.and_eq_true] at h
    simp only [List.map_cons]
    rw [hσ.1 a (by simpa using h.1), ih h.2]

theorem isEmpty_map {α β : Type _} (f : α → β) (l : List α) : (l.map f).isEmpty = l.isEmpty := by
  cases l <;> rfl

theorem takeWhile_ren {σ : Char → Char} {p : Char → Bool} (hp : ∀ c, p (σ c) = p c)
    (l : Str) : (l.map σ).takeWhile p = (l.takeWhile p).map σ := by
  rw [List.takeWhile_map, show (p ∘ σ) = p from funext fun c => hp c]

theorem dropWhile_ren {σ : Char → Char} {p : Char → Bool} (hp : ∀ c, p (σ c) = p c)
    (l : Str) : (l.map σ).dropWhile p = (l.dropWhile p).map σ := by
  rw [List.dropWhile_map, show (p ∘ σ) = p from funext fun c => hp c]

theorem getLastD_map {σ : Char → Char} :
    ∀ (l : Str) (d : Char), (l.map σ).getLastD (σ d) = σ (l.getLastD d)
  | [], _ => rfl
  | a :: t, _ => by
    simp only [List.map_cons, List.getLastD_cons]
    exact getLastD_map t a

theorem getLastD_ren {σ : Char → Char} (hσ : DigitRen σ) (l : Str) :
    (l.map σ).getLastD 'g' = σ (l.getLastD 'g') := by
  have h := getLastD_map (σ := σ) l 'g'
  rw [ren_fix hσ (by decide : ('g').isDigit = false)] at h
  exact h

theorem stripL_ren {σ : Char → Char} (hσ : DigitRen σ) (s : Str) :
    stripL (s.map σ) = (stripL s).map σ := by
  unfold stripL
  rw [dropWhile_ren (ren_pyWS hσ), ← List.map_reverse, dropWhile_ren (ren_pyWS hσ),
    ← List.map_reverse]

theorem isPrefixL_ren {σ : Char → Char} (hσ : DigitRen σ) :
    ∀ (pat s : Str), pat.all (fun c => !c.isDigit) = true →
      isPrefixL pat (s.map σ) = isPrefixL pat s
  | [], _, _ => rfl
  | _ :: _, [], _ => rfl
  | p :: ps, c :: cs, hpat => by
    have hp : p.isDigit = false := by
      have h := (List.all_eq_true.mp hpat) p (List.mem_cons_self _ _)
      simpa using h
    have hps : ps.all (fun x => !x.isDigit) = true := by
      rw [List.all_eq_true] at hpat ⊢
      exact fun x hx => hpat x (List.mem_cons_of_mem _ hx)
    simp only [List.map_cons, isPrefixL]
    rw [isPrefixL_ren hσ ps cs hps]
    have he : decide (p = σ c) = decide (p = c) := by
      apply decide_eq_decide.mpr
      rw [show (p = σ c) = (σ c = p) from propext eq_comm,
        show (p = c) = (c = p) from propext eq_comm]
      exact iff_of_eq (ren_eq_char hσ hp c)
    rw [he]

theorem ciPrefix_ren {σ : Char → Char} (hσ : DigitRen σ) :
    ∀ (pat s : Str), pat.all (fun c => !(lowerC c).isDigit) = true →
      ciPrefix pat (s.map σ) = ciPrefix pat s
  | [], _, _ => rfl
  | _ :: _, [], _ => rfl
  | p :: ps, c :: cs, hpat => by
    have hp : (lowerC p).isDigit = false := by
      have h := (List.all_eq_true.mp hpat) p (List.mem_cons_self _ _)
      simpa using h
    have hps : ps.all (fun x => !(lowerC x).isDigit) = true := by
      rw [List.all_eq_true] at hpat ⊢
      exact fun x hx => hpat x (List.mem_cons_of_mem _ hx)
    simp only [List.map_cons, ciPrefix]
    rw [ciPrefix_ren hσ ps cs hps]
    have he : decide (lowerC p = lowerC (σ c)) = decide (lowerC p = lowerC c) := by
      apply decide_eq_decide.mpr
      rw [ren_lowerC hσ c]
      rw [show (lowerC p = σ (lowerC c)) = (σ (lowerC c) = lowerC p) from propext eq_comm,
        show (lowerC p = lowerC c) = (lowerC c = lowerC p) from propext eq_comm]
      exact iff_of_eq (ren_eq_char hσ hp (lowerC c))
    rw [he]

theorem containsL_ren {σ : Char → Char} (hσ : DigitRen σ) (needle : Str)
    (hn : needle.all (fun c => !c.isDigit) = true) :
    ∀ s : Str, containsL (s.map σ) needle = containsL s needle
  | [] => rfl
  | c :: cs => by
    simp only [List.map_cons, containsL]
    rw [containsL_ren hσ needle hn cs]
    have h := isPrefixL_ren hσ needle (c :: cs) hn
    simp only [List.map_cons] at h
    rw [h]

theorem ciPrefix_wd_ren {σ : Char → Char} (hσ : DigitRen σ) :
    ∀ w ∈ WEEKDAYS, ∀ s : Str, ciPrefix w.data (s.map σ) = ciPrefix w.data s := by
  intro w hw s
  fin_cases hw <;> exact ciPrefix_ren hσ _ s (by decide)

theorem find?_ciPrefix_ren {σ : Char → Char} (hσ : DigitRen σ) (s : Str) :
    ∀ ws : List String, (∀ w ∈ ws, ∀ t : Str, ciPrefix w.data (t.map σ) = ciPrefix w.data t) →
      ws.find? (fun w => ciPrefix w.data (s.map σ)) = ws.find? (fun w => ciPrefix w.data s)
  | [], _ => rfl
  | w :: ws, h => by
    rw [List.find?_cons, List.find?_cons, h w (List.mem_cons_self _ _) s]
    cases hcw : ciPrefix w.data s with
    | true => rfl
    | false => exact find?_ciPrefix_ren hσ s ws fun x hx => h x (List.mem_cons_of_mem _ hx)

theorem findWD_ren {σ : Char → Char} (hσ : DigitRen σ) (s : Str) :
    WEEKDAYS.find? (fun w => ciPrefix w.data (s.map σ)) =
      WEEKDAYS.find? (fun w => ciPrefix w.data s) :=
  find?_ciPrefix_ren hσ s WEEKDAYS (fun w hw => ciPrefix_wd_ren hσ w hw)

theorem stripLeadingWeekday_ren {σ : Char → Char} (hσ : DigitRen σ) (s : Str) :
    stripLeadingWeekday (s.map σ) = (stripLeadingWeekday s).map σ := by
  unfold stripLeadingWeekday
  rw [findWD_ren hσ s]
  cases hf : WEEKDAYS.find? (fun w => ciPrefix w.data s) with
  | none => rfl
  | some w =>
    show ((s.map σ).drop w.length).dropWhile pyWS = ((s.drop w.length).dropWhile pyWS).map σ
    rw [← List.map_drop, dropWhile_ren (ren_pyWS hσ)]

theorem dupWDMatch_ren {σ : Char → Char} (hσ : DigitRen σ) (s : Str) :
    dupWDMatch (s.map σ) =
      (dupWDMatch s).map (fun q => (q.1.map σ, q.2.map σ)) := by
  simp only [dupWDMatch]
  rw [findWD_ren hσ s]
  cases hf : WEEKDAYS.find? (fun w => ciPrefix w.data s) with
  | none => rfl
  | some w =>
    have hw : w ∈ WEEKDAYS := List.mem_of_find?_eq_some hf
    simp only [Option.some_bind]
    simp only [← List.map_drop, ← List.map_take]
    rw [takeWhile_ren (ren_pyWS hσ), isEmpty_map, List.length_map]
    rw [ciPrefix_wd_ren hσ w hw]
    split_ifs with h1 h2
    · rfl
    · cases hX : ((s.drop w.length).drop ((s.drop w.length).takeWhile pyWS).length).drop
          w.length with
      | nil => simp
      | cons c t =>
        simp only [List.map_cons]
        rw [ren_wordChar hσ c]
        by_cases hwc : wordChar c = true
        · rw [if_pos hwc, if_pos hwc]
          rfl
        · rw [if_neg hwc, if_neg hwc]
          simp
    · rfl

theorem collapseDupWD_ren {σ : Char → Char} (hσ : DigitRen σ) :
    ∀ (fuel : Nat) (prev : Option Char) (s : Str),
      collapseDupWD fuel (prev.map σ) (s.map σ) = (collapseDupWD fuel prev s).map σ
  | 0, _, _ => rfl
  | _ + 1, _, [] => rfl
  | fuel + 1, none, c :: cs => by
    simp only [List.map_cons, Option.map_none', collapseDupWD]
    have hd := dupWDMatch_ren hσ (c :: cs)
    simp only [List.map_cons] at hd
    simp only [if_true]
    rw [hd]
    cases hm : dupWDMatch (c :: cs) with
    | none =>
      simp only [Option.map_none']
      have hrec : collapseDupWD fuel (some (σ c)) (cs.map σ) =
          (collapseDupWD fuel (some c) cs).map σ := by
        have h := collapseDupWD_ren hσ fuel (some c) cs
        simpa using h
      rw [hrec]
      simp
    | some q =>
      obtain ⟨g1, rest⟩ := q
      simp only [Option.map_some']
      rw [getLastD_ren hσ g1]
      have hr2 : collapseDupWD fuel (some (σ (g1.getLastD 'g'))) (rest.map σ) =
          (collapseDupWD fuel (some (g1.getLastD 'g')) rest).map σ := by
        have h := collapseDupWD_ren hσ fuel (some (g1.getLastD 'g')) rest
        simpa using h
      rw [hr2]
      simp
  | fuel + 1, some p, c :: cs => by
    simp only [List.map_cons, Option.map_some', collapseDupWD]
    simp only [ren_wordChar hσ p]
    have hrec : collapseDupWD fuel (some (σ c)) (cs.map σ) =
        (collapseDupWD fuel (some c) cs).map σ := by
      have h := collapseDupWD_ren hσ fuel (some c) cs
      simpa using h
    by_cases hwp : (!wordChar p) = true
    · have hd := dupWDMatch_ren hσ (c :: cs)
      simp only [List.map_cons] at hd
      rw [if_pos hwp, if_pos hwp, hd]
      cases hm : dupWDMatch (c :: cs) with
      | none =>
        simp only [Option.map_none']
        rw [hrec]
        simp
      | some q =>
        obtain ⟨g1, rest⟩ := q
        simp only [Option.map_some']
        rw [getLastD_ren hσ g1]
        have hr2 : collapseDupWD fuel (some (σ (g1.getLastD 'g'))) (rest.map σ) =
            (collapseDupWD fuel (some (g1.getLastD 'g')) rest).map σ := by
          have h := collapseDupWD_ren hσ fuel (some (g1.getLastD 'g')) rest
          simpa using h
        rw [hr2]
        simp
    · rw [if_neg hwp, if_neg hwp, hrec]
      simp

theorem ntrCollapse_ren {σ : Char → Char} (hσ : DigitRen σ) :
    ∀ (b : Bool) (s : Str), ntrCollapse b (s.map σ) = (ntrCollapse b s).map σ
  | _, [] => rfl
  | b, c :: cs => by
    simp only [List.map_cons, ntrCollapse]
    rw [ren_isNTR hσ c]
    by_cases hc : isNTR c = true
    · rw [if_pos hc, if_pos hc]
      cases b with
      | true => exact ntrCollapse_ren hσ true cs
      | false =>
        simp only [Bool.false_eq_true, if_false, List.map_cons]
        rw [ren_fix hσ (by decide : (' ').isDigit = false), ntrCollapse_ren hσ true cs]
    · rw [if_neg hc, if_neg hc, List.map_cons, ntrCollapse_ren hσ false cs]

theorem wsCollapse_ren {σ : Char → Char} (hσ : DigitRen σ) :
    ∀ (b : Bool) (s : Str), wsCollapse b (s.map σ) = (wsCollapse b s).map σ
  | _, [] => rfl
  | b, c :: cs => by
    simp only [List.map_cons, wsCollapse]
    rw [ren_pyWS hσ c]
    by_cases hc : pyWS c = true
    · rw [if_pos hc, if_pos hc]
      cases b with
      | true => exact wsCollapse_ren hσ true cs
      | false =>
        simp only [Bool.false_eq_true, if_false, List.map_cons]
        rw [ren_fix hσ (by decide : (' ').isDigit = false), wsCollapse_ren hσ true cs]
    · rw [if_neg hc, if_neg hc, List.map_cons, wsCollapse_ren hσ false cs]

theorem dashCanon_ren {σ : Char → Char} (hσ : DigitRen σ) :
    ∀ (fuel : Nat) (s : Str), dashCanon fuel (s.map σ) = (dashCanon fuel s).map σ
  | 0, _ => rfl
  | fuel + 1, s => by
    simp only [dashCanon]
    rw [takeWhile_ren (ren_pyWS hσ), List.length_map, ← List.map_drop]
    cases hdr : s.drop (s.takeWhile pyWS).length with
    | nil => simp
    | cons d r2 =>
      simp only [List.map_cons]
      rw [ren_isDashAll hσ d]
      by_cases hd : isDashAll d = true
      · rw [if_pos hd, if_pos hd, dropWhile_ren (ren_pyWS hσ),
          dashCanon_ren hσ fuel (r2.dropWhile pyWS)]
        simp [ren_fix hσ (by decide : (' ').isDigit = false),
          ren_fix hσ (by decide : ('-').isDigit = false)]
      · rw [if_neg hd, if_neg hd]
        cases s with
        | nil => simp at hdr
        | cons c t =>
          simp only [List.map_cons]
          rw [dashCanon_ren hσ fuel t]

theorem uhrCanon_ren {σ : Char → Char} (hσ : DigitRen σ) :
    ∀ (fuel : Nat) (s : Str), uhrCanon fuel (s.map σ) = (uhrCanon fuel s).map σ
  | 0, _ => rfl
  | _ + 1, [] => rfl
  | fuel + 1, c :: cs => by
    simp only [List.map_cons, uhrCanon]
    rw [← List.map_cons]
    rw [takeWhile_ren (ren_pyWS hσ), isEmpty_map]
    by_cases hw : ((c :: cs).takeWhile pyWS).isEmpty = true
    · rw [if_pos hw, if_pos hw, uhrCanon_ren hσ fuel cs]
      simp
    · rw [if_neg hw, if_neg hw, List.length_map, ← List.map_drop]
      cases hdr : (c :: cs).drop ((c :: cs).takeWhile pyWS).length with
      | nil => simp [uhrCanon_ren hσ fuel cs]
      | cons u r =>
        cases r with
        | nil => simp [uhrCanon_ren hσ fuel cs]
        | cons u2 r2 =>
          cases r2 with
          | nil => simp [uhrCanon_ren hσ fuel cs]
          | cons u3 r3 =>
            simp only [List.map_cons]
            rw [ren_beq_char hσ (by decide : ('U').isDigit = false) u,
              ren_beq_char hσ (by decide : ('u').isDigit = false) u,
              ren_beq_char hσ (by decide : ('h').isDigit = false) u2,
              ren_beq_char hσ (by decide : ('r').isDigit = false) u3]
            by_cases hcond : ((u = 'U' || u = 'u') && u2 = 'h' && u3 = 'r') = true
            · rw [if_pos hcond, if_pos hcond, takeWhile_ren (ren_pyWS hσ), isEmpty_map]
              by_cases hw2 : (r3.takeWhile pyWS).isEmpty = true
              · rw [if_pos hw2, if_pos hw2, uhrCanon_ren hσ fuel cs]
                simp
              · rw [if_neg hw2, if_neg hw2, List.length_map, ← List.map_drop,
                  uhrCanon_ren hσ fuel (r3.drop (r3.takeWhile pyWS).length)]
                simp [ren_fix hσ (by decide : (' ').isDigit = false),
                  ren_fix hσ (by decide : ('U').isDigit = false),
                  ren_fix hσ (by decide : ('h').isDigit = false),
                  ren_fix hσ (by decide : ('r').isDigit = false)]
            · rw [if_neg hcond, if_neg hcond, uhrCanon_ren hσ fuel cs]
              simp

theorem digitUhr_ren {σ : Char → Char} (hσ : DigitRen σ) :
    ∀ s : Str, digitUhr (s.map σ) = (digitUhr s).map σ
  | [] => rfl
  | [_] => rfl
  | [_, _] => rfl
  | [_, _, _] => rfl
  | c :: u :: u2 :: u3 :: t => by
    simp only [List.map_cons, digitUhr]
    rw [ren_isDigit hσ c, ren_beq_char hσ (by decide : ('U').isDigit = false) u,
      ren_beq_char hσ (by decide : ('u').isDigit = false) u,
      ren_beq_char hσ (by decide : ('h').isDigit = false) u2,
      ren_beq_char hσ (by decide : ('r').isDigit = false) u3]
    by_cases hcond : (c.isDigit && (u = 'U' || u = 'u') && u2 = 'h' && u3 = 'r') = true
    · rw [if_pos hcond, if_pos hcond, digitUhr_ren hσ t]
      simp [ren_fix hσ (by decide : (' ').isDigit = false)]
    · rw [if_neg hcond, if_neg hcond]
      have h := digitUhr_ren hσ (u :: u2 :: u3 :: t)
      simp only [List.map_cons] at h
      rw [h]
      simp

theorem rstripJunk_ren {σ : Char → Char} (hσ : DigitRen σ) (s : Str) :
    rstripJunk (s.map σ) = (rstripJunk s).map σ := by
  simp only [rstripJunk]
  rw [← List.map_reverse, dropWhile_ren (ren_pyWS hσ), dropWhile_ren (ren_isTrailJunk hσ),
    List.length_map, List.length_map]
  by_cases h : ((s.reverse.dropWhile pyWS).dropWhile isTrailJunk).length =
      (s.reverse.dropWhile pyWS).length
  · rw [if_pos h, if_pos h]
  · rw [if_neg h, if_neg h, ← List.map_reverse]

theorem beforeLastSpace_ren {σ : Char → Char} (hσ : DigitRen σ) (s : Str) :
    beforeLastSpace (s.map σ) = (beforeLastSpace s).map σ := by
  simp only [beforeLastSpace]
  rw [List.any_map, show ((fun c => decide (c = ' ')) ∘ σ) = fun c => decide (c = ' ')
    from funext fun c => ren_beq_char hσ (by decide) c]
  by_cases h : s.any (fun c => decide (c = ' ')) = true
  · rw [if_pos h, if_pos h, ← List.map_reverse,
      dropWhile_ren (fun c => ren_bne_char hσ (by decide) c), ← List.map_drop,
      ← List.map_reverse]
  · rw [if_neg h, if_neg h]

theorem beforeFirst_ren {σ : Char → Char} (hσ : DigitRen σ) (pat : Str)
    (hp : pat.all (fun c => !c.isDigit) = true) :
    ∀ s : Str, beforeFirst (s.map σ) pat = (beforeFirst s pat).map σ
  | [] => rfl
  | c :: cs => by
    simp only [List.map_cons, beforeFirst]
    have h := isPrefixL_ren hσ pat (c :: cs) hp
    simp only [List.map_cons] at h
    rw [h]
    by_cases hpre : isPrefixL pat (c :: cs) = true
    · rw [if_pos hpre, if_pos hpre]
      rfl
    · rw [if_neg hpre, if_neg hpre, beforeFirst_ren hσ pat hp cs]
      simp

theorem lowerL_ren {σ : Char → Char} (hσ : DigitRen σ) (l : Str) :
    lowerL (l.map σ) = (lowerL l).map σ := by
  simp only [lowerL, List.map_map]
  rw [show (lowerC ∘ σ) = (σ ∘ lowerC) from funext fun c => ren_lowerC hσ c]

theorem cleanEntryL_ren {σ : Char → Char} (hσ : DigitRen σ) (s : Str) :
    cleanEntryL (s.map σ) = (cleanEntryL s).map σ := by
  have hcol : ∀ (fuel : Nat) (x : Str),
      collapseDupWD fuel none (x.map σ) = (collapseDupWD fuel none x).map σ := by
    intro fuel x
    have h := collapseDupWD_ren hσ fuel none x
    simpa using h
  simp only [cleanEntryL, stripL_ren hσ, stripLeadingWeekday_ren hσ, List.length_map, hcol,
    ntrCollapse_ren hσ, wsCollapse_ren hσ, dashCanon_ren hσ, uhrCanon_ren hσ,
    digitUhr_ren hσ, rstripJunk_ren hσ, ← List.map_take, beforeLastSpace_ren hσ,
    ← apply_ite (List.map σ)]

theorem parseHHMM_ren {σ : Char → Char} (hσ : DigitRen σ) :
    ∀ s : Str, parseHHMM (s.map σ) = (parseHHMM s).map (fun q => (q.1.map σ, q.2.map σ))
  | [] => rfl
  | [_] => rfl
  | [_, _] => rfl
  | [_, _, _] => rfl
  | [a, b, c, d] => by
    simp only [List.map_cons, List.map_nil, parseHHMM]
    rw [ren_isDigit hσ a, ren_beq_char hσ (by decide : (':').isDigit = false) b,
      ren_isDigit hσ c, ren_isDigit hσ d]
    by_cases h : (a.isDigit && b = ':' && c.isDigit && d.isDigit) = true
    · rw [if_pos h, if_pos h]
      simp
    · rw [if_neg h, if_neg h]
      rfl
  | a :: b :: c :: d :: e :: r => by
    simp only [List.map_cons, parseHHMM]
    rw [ren_isDigit hσ a, ren_isDigit hσ b,
      ren_beq_char hσ (by decide : (':').isDigit = false) c, ren_isDigit hσ c,
      ren_isDigit hσ d, ren_isDigit hσ e,
      ren_beq_char hσ (by decide : (':').isDigit = false) b]
    by_cases h1 : (a.isDigit && b.isDigit && c = ':' && d.isDigit && e.isDigit) = true
    · rw [if_pos h1, if_pos h1]
      simp
    · rw [if_neg h1, if_neg h1]
      by_cases h2 : (a.isDigit && b = ':' && c.isDigit && d.isDigit) = true
      · rw [if_pos h2, if_pos h2]
        simp
      · rw [if_neg h2, if_neg h2]
        rfl

theorem parseTR_ren {σ : Char → Char} (hσ : DigitRen σ) (s : Str) :
    parseTR (s.map σ) = (parseTR s).map (fun q => (q.1.map σ, q.2.map σ)) := by
  simp only [parseTR]
  rw [parseHHMM_ren hσ s]
  cases hp : parseHHMM s with
  | none => rfl
  | some p =>
    obtain ⟨t1, r1⟩ := p
    simp only [Option.map_some', Option.some_bind]
    rw [takeWhile_ren (ren_pyWS hσ), List.length_map, ← List.map_drop]
    cases hd : r1.drop (r1.takeWhile pyWS).length with
    | nil => rfl
    | cons d r3 =>
      simp only [List.map_cons]
      rw [ren_isDashND hσ d]
      by_cases hdd : isDashND d = true
      · rw [if_pos hdd, if_pos hdd, takeWhile_ren (ren_pyWS hσ), List.length_map,
          ← List.map_drop, parseHHMM_ren hσ (r3.drop (r3.takeWhile pyWS).length)]
        cases hq : parseHHMM (r3.drop (r3.takeWhile pyWS).length) with
        | none => rfl
        | some q =>
          obtain ⟨t2, r5⟩ := q
          simp [List.map_append]
      · rw [if_neg hdd, if_neg hdd]
        rfl

theorem descRuleL_ren {σ : Char → Char} (hσ : DigitRen σ) (d : Str) :
    descRuleL (d.map σ) = (descRuleL d).map σ := by
  simp only [descRuleL]
  rw [lowerL_ren hσ d, isEmpty_map]
  rw [containsL_ren hσ "eingeschränk".data (by decide) (lowerL d),
    containsL_ren hσ "eingeschraenk".data (by decide) (lowerL d),
    containsL_ren hσ "eingeschr".data (by decide) (lowerL d),
    containsL_ren hσ "öffent".data (by decide) (lowerL d),
    containsL_ren hσ "offent".data (by decide) (lowerL d),
    containsL_ren hσ "schul".data (by decide) (lowerL d),
    containsL_ren hσ "verein".data (by decide) (lowerL d),
    containsL_ren hσ "kurs".data (by decide) (lowerL d),
    containsL_ren hσ "gemischt".data (by decide) (lowerL d),
    containsL_ren hσ "menschen mit behinderung".data (by decide) (lowerL d),
    containsL_ren hσ "behinderung".data (by decide) (lowerL d)]
  split_ifs <;>
    first
      | rfl
      | exact (map_ren_fix hσ (by decide)).symm
      | rw [beforeFirst_ren hσ " Einlass".data (by decide) d,
          beforeFirst_ren hσ " Badeschluss".data (by decide) (beforeFirst d " Einlass".data),
          ← List.map_take, beforeLastSpace_ren hσ]

theorem normDescL_ren {σ : Char → Char} (hσ : DigitRen σ) (e : Str) :
    normDescL (e.map σ) = (normDescL e).map σ := by
  simp only [normDescL]
  rw [parseTR_ren hσ e]
  cases hp : parseTR e with
  | none => rfl
  | some p =>
    obtain ⟨tr, r5⟩ := p
    simp only [Option.map_some']
    have hnp : ∀ c, (!pyWS (σ c)) = !pyWS c := fun c => by rw [ren_pyWS hσ c]
    rw [takeWhile_ren hnp, List.length_map, ← List.map_drop, ← List.map_append,
      stripL_ren hσ, dropWhile_ren (ren_pyWS hσ),
      takeWhile_ren (fun c => ren_bne_char hσ (by decide : ('\n').isDigit = false) c),
      stripL_ren hσ, descRuleL_ren hσ, isEmpty_map]
    split_ifs with h
    · rfl
    · simp [ren_fix hσ (by decide : (' ').isDigit = false)]

theorem digitSubst_ren {a b c d e f g h : Char} (ha : a.isDigit = true)
    (hb : b.isDigit = true) (hc : c.isDigit = true) (hd : d.isDigit = true)
    (he : e.isDigit = true) (hf : f.isDigit = true) (hg : g.isDigit = true)
    (hh : h.isDigit = true) : DigitRen (digitSubst a b c d e f g h) := by
  constructor
  · intro x hx
    simp only [digitSubst]
    rw [if_neg (Ne.symm (digit_ne_char (by decide) hx)),
      if_neg (Ne.symm (digit_ne_char (by decide) hx)),
      if_neg (Ne.symm (digit_ne_char (by decide) hx)),
      if_neg (Ne.symm (digit_ne_char (by decide) hx)),
      if_neg (Ne.symm (digit_ne_char (by decide) hx)),
      if_neg (Ne.symm (digit_ne_char (by decide) hx)),
      if_neg (Ne.symm (digit_ne_char (by decide) hx)),
      if_neg (Ne.symm (digit_ne_char (by decide) hx))]
  · intro x hx
    simp only [digitSubst]
    split_ifs <;> assumption

/-! ### Theorems for the claims -/

/-- C1 counterexample: the claim `N (N s) = N s` for every string fails.
`clean_entry` strips only one leading weekday token per pass, so an entry
that begins with two different weekday tokens shrinks again on the second
pass: after one pass the entry still begins with `Dienstag`, after two it
does not. -/
theorem c1_counterexample :
    N (N "Montag Dienstag 10:00 - 12:00 Uhr öffentlich") ≠
      N "Montag Dienstag 10:00 - 12:00 Uhr öffentlich" := by decide

/-- C1 (amended): normalization is idempotent on entries already in
canonical form - every canonical time range `HH:MM - HH:MM` (any two-digit
hour and minute fields, i.e. any eight digit characters) followed by any of
the five canonical labels of the description rule table, or by nothing, is
a fixed point of `N`. The proof transports the concrete fixed point at the
reference digits 1-8 along the digit renaming `digitSubst a b c d e f g h`,
with which the whole pipeline commutes. -/
theorem c1_idempotent_on_canonical (a b c d e f g h : Char)
    (ha : a.isDigit = true) (hb : b.isDigit = true) (hc : c.isDigit = true)
    (hd : d.isDigit = true) (he : e.isDigit = true) (hf : f.isDigit = true)
    (hg : g.isDigit = true) (hh : h.isDigit = true) :
    ∀ L ∈ (["", " öffentl. Schwimmen (eingeschr. WF)", " nur Schul-/Vereins-/Kursbetrieb",
        " gemischt", " Menschen mit Behinderung", " öffentl. Schwimmen"] : List String),
      N (String.mk ([a, b, ':', c, d, ' ', '-', ' ', e, f, ':', g, h] ++ L.data)) =
        String.mk ([a, b, ':', c, d, ' ', '-', ' ', e, f, ':', g, h] ++ L.data) := by
  have hσ := digitSubst_ren ha hb hc hd he hf hg hh
  have hgen : ∀ L : String, L.data.all (fun x => !x.isDigit) = true →
      normDescL (cleanEntryL ("12:34 - 56:78" ++ L).data) = ("12:34 - 56:78" ++ L).data →
      N (String.mk ([a, b, ':', c, d, ' ', '-', ' ', e, f, ':', g, h] ++ L.data)) =
        String.mk ([a, b, ':', c, d, ' ', '-', ' ', e, f, ':', g, h] ++ L.data) := by
    intro L hall hfix
    have hdata : ∀ l : Str, (String.mk l).data = l := fun l => rfl
    have hchars : "12:34 - 56:78".data =
        ['1', '2', ':', '3', '4', ' ', '-', ' ', '5', '6', ':', '7', '8'] := by decide
    have hm : (("12:34 - 56:78" ++ L).data).map (digitSubst a b c d e f g h) =
        [a, b, ':', c, d, ' ', '-', ' ', e, f, ':', g, h] ++ L.data := by
      rw [show ("12:34 - 56:78" ++ L).data = "12:34 - 56:78".data ++ L.data from rfl,
        List.map_append, map_ren_fix hσ hall, hchars]
      simp [digitSubst]
    simp only [N, clean_entry, normalize_description, hdata]
    rw [← hm, cleanEntryL_ren hσ, normDescL_ren hσ, hfix]
  intro L hL
  fin_cases hL
  · exact hgen "" (by decide) (by decide)
  · exact hgen " öffentl. Schwimmen (eingeschr. WF)" (by decide) (by decide)
  · exact hgen " nur Schul-/Vereins-/Kursbetrieb" (by decide) (by decide)
  · exact hgen " gemischt" (by decide) (by decide)
  · exact hgen " Menschen mit Behinderung" (by decide) (by decide)
  · exact hgen " öffentl. Schwimmen" (by decide) (by decide)

/-- Witness for C1: the theorem applied at the digits of `06:30 - 08:00`
and the label `öffentl. Schwimmen` gives a concrete fixed point of `N`. -/
theorem c1_witness :
    N "06:30 - 08:00 öffentl. Schwimmen" = "06:30 - 08:00 öffentl. Schwimmen" :=
  c1_idempotent_on_canonical '0' '6' '3' '0' '0' '8' '0' '0'
    (by decide) (by decide) (by decide) (by decide) (by decide) (by decide) (by decide)
    (by decide) " öffentl. Schwimmen" (by decide)

/-- C2 counterexample: a suffix with a restricted-surface marker and NO
public-swimming marker is still mapped to the combined label, so the
claimed "exactly when it contains both markers" is false. -/
theorem c2_counterexample :
    normalize_description "10:00 - 12:00 Uhr eingeschränkte Wasserfläche" =
      "10:00 - 12:00 öffentl. Schwimmen (eingeschr. WF)" ∧
    containsS (lowerS "10:00 - 12:00 Uhr eingeschränkte Wasserfläche") "öffent" = false ∧
    containsS (lowerS "10:00 - 12:00 Uhr eingeschränkte Wasserfläche") "offent" = false := by
  decide

/-- C10: on a weekend day, an entry whose final text contains both the
public trigger substring and the restricted-access substring triggers the
weekend filter and is removed by it, leaving the day without any public
entry at all. -/
theorem c10_self_removal :
    pubTrig "10:00 - 12:00öffentlich nur Schul-/Vereins-/Kursbetrieb" = true ∧
    schulFree "10:00 - 12:00öffentlich nur Schul-/Vereins-/Kursbetrieb" = false ∧
    preFinal ["10:00-12:00öffentlich nur Schulbetrieb"] =
      ["10:00 - 12:00öffentlich nur Schul-/Vereins-/Kursbetrieb"] ∧
    cleanDay "Samstag" ["10:00-12:00öffentlich nur Schulbetrieb"] = [] := by decide

/-- C4 counterexample: in the cleaner a closed raw entry does not suppress
the other raw entries of the day, so the day's output is not exactly
`["Geschlossen"]`. -/
theorem c4_counterexample :
    containsS (lowerS "geschlossen") "geschlossen" = true ∧
    cleanDay "Montag" ["geschlossen", "10:00 - 12:00 Uhr öffentlich"] ≠ ["Geschlossen"] ∧
    cleanDay "Montag" ["geschlossen", "10:00 - 12:00 Uhr öffentlich"] =
      ["10:00 - 12:00 öffentl. Schwimmen", "Geschlossen"] := by decide

/-- C8 counterexample: the validator accepts hour fields up to two digits,
so an entry starting `25:00` is parseable (key 1500) and sorts after the
unparseable sentinel (key 1440), contradicting "every entry whose start
cannot be parsed is placed after all entries with a parseable start". -/
theorem c8_counterexample :
    searchHM "Geschlossen".data = none ∧
    start_minutes "25:00 - 26:00 Uhr" = 1500 ∧
    cleanDay "Montag" ["geschlossen", "25:00 - 26:00 Uhr Schwimmen"] =
      ["Geschlossen", "25:00 - 26:00 Uhr"] := by decide

/-- C9 counterexample: the closed sentinel bypasses the dedup set, so two
closed raw entries yield a duplicated output, which is not pairwise
distinct under case-insensitive comparison. -/
theorem c9_counterexample :
    cleanDay "Montag" ["wieder geschlossen", "geschlossen!"] =
      ["Geschlossen", "Geschlossen"] ∧
    ¬ (cleanDay "Montag" ["wieder geschlossen", "geschlossen!"]).Pairwise
        (fun a b => lowerS a ≠ lowerS b) := by decide

/-- C6 counterexample: with six valid entries in descending start order the
final output is the first four entries re-sorted ascending, not the first
four in original relative order. -/
theorem c6_counterexample :
    (cleanedEntries rawDesc6).take MAX_ENTRIES_PER_DAY =
      ["20:00 - 21:00 Uhr", "19:00 - 20:00 Uhr", "18:00 - 19:00 Uhr", "17:00 - 18:00 Uhr"] ∧
    cleanDay "Montag" rawDesc6 ≠
      ["20:00 - 21:00 Uhr", "19:00 - 20:00 Uhr", "18:00 - 19:00 Uhr", "17:00 - 18:00 Uhr"] ∧
    cleanDay "Montag" rawDesc6 =
      ["17:00 - 18:00 Uhr", "18:00 - 19:00 Uhr", "19:00 - 20:00 Uhr", "20:00 - 21:00 Uhr"] := by
  decide

/-- C3 counterexample: on a text whose weekday tokens are out of week order
and repeat, the chunks the fixed scraper captures differ from the sections
described by the claim (every occurrence, ending at the next occurrence of
any other weekday token). -/
theorem c3_counterexample :
    codeDayChunks "Montag a Dienstag b Montag c" 0 ≠
      specSpanSections "Montag a Dienstag b Montag c" 0 ∧
    codeDayChunks "Montag a Dienstag b Montag c" 1 ≠
      specSpanSections "Montag a Dienstag b Montag c" 1 := by decide

/-! ### Helper lemmas for the general theorems -/

theorem foldl_inv {σ α : Type _} {P : σ → Prop} {f : σ → α → σ}
    (hf : ∀ s a, P s → P (f s a)) : ∀ (l : List α) (s : σ), P s → P (l.foldl f s)
  | [], _, h => h
  | a :: t, s, h => foldl_inv hf t (f s a) (hf s a h)

theorem inv_append {st : List Str × List Str} (h : Inv st) {e : Str}
    (hG : e ≠ G) (hm : lowerL e ∉ st.1) : Inv (lowerL e :: st.1, st.2 ++ [e]) := by
  obtain ⟨h1, h2⟩ := h
  constructor
  · intro x hx hxG
    rcases List.mem_append.1 hx with hx | hx
    · exact List.mem_cons_of_mem _ (h1 x hx hxG)
    · simp only [List.mem_singleton] at hx
      subst hx
      exact List.mem_cons_self _ _
  · rw [List.filter_append]
    have hfe : List.filter (fun x => !(x == G)) [e] = [e] := by
      simp [hG]
    rw [hfe, List.pairwise_append]
    refine ⟨h2, List.pairwise_singleton _ _, ?_⟩
    intro x hx y hy
    simp only [List.mem_singleton] at hy
    subst hy
    have hxm := List.mem_filter.1 hx
    have hxG : x ≠ G := by simpa using hxm.2
    intro hEq
    exact hm (hEq ▸ h1 x hxm.1 hxG)

theorem inv_processCand : ∀ (st : List Str × List Str) (c : Str), Inv st → Inv (processCand st c) := by
  intro st c h
  have key : ∀ e : Str,
      Inv (if isValidL e = true then
        (if lowerL e ∈ st.1 then st else (lowerL e :: st.1, st.2 ++ [e])) else st) := by
    intro e
    by_cases hv : isValidL e = true
    · rw [if_pos hv]
      by_cases hmem : lowerL e ∈ st.1
      · rw [if_pos hmem]; exact h
      · rw [if_neg hmem]
        have hG : e ≠ G := fun hEq => absurd (hEq ▸ hv) (by decide)
        exact inv_append h hG hmem
    · rw [if_neg hv]; exact h
  exact key (normDescL (cleanEntryL c))

theorem inv_processRaw : ∀ (st : List Str × List Str) (raw : Str), Inv st → Inv (processRaw st raw) := by
  intro st raw h
  unfold processRaw
  by_cases hg : containsL (lowerL raw) "geschlossen".data = true
  · rw [if_pos hg]
    obtain ⟨h1, h2⟩ := h
    constructor
    · intro x hx hxG
      rcases List.mem_append.1 hx with hx | hx
      · exact h1 x hx hxG
      · simp only [List.mem_singleton] at hx
        exact absurd hx hxG
    · rw [List.filter_append]
      have hfg : List.filter (fun x => !(x == G)) (["Geschlossen".data] : List Str) = [] := by
        decide
      rw [hfg, List.append_nil]
      exact h2
  · rw [if_neg hg]
    have hPart : ∀ s p, Inv s → Inv (processPart s p) :=
      fun s p hs => foldl_inv inv_processCand _ s hs
    exact foldl_inv hPart _ st h

theorem pairwise_cleanedEntriesL (raws : List Str) :
    ((cleanedEntriesL raws).filter (fun e => !(e == G))).Pairwise Rne := by
  have h0 : Inv (([], []) : List Str × List Str) := by
    constructor
    · intro e he; exact absurd he (List.not_mem_nil e)
    · simp
  exact (foldl_inv inv_processRaw raws ([], []) h0).2

theorem pairwise_cleanedEntries (raws : List String) :
    ((cleanedEntries raws).filter (fun e => !(e == "Geschlossen"))).Pairwise
      (fun a b => lowerS a ≠ lowerS b) := by
  unfold cleanedEntries
  rw [List.filter_map, List.pairwise_map]
  have hpred : ((fun e : String => !(e == "Geschlossen")) ∘ String.mk) =
      (fun l : Str => !(l == G)) := by
    funext l
    simp only [Function.comp_apply]
    congr 1
    rw [Bool.eq_iff_iff, beq_iff_eq, beq_iff_eq, String.ext_iff]
    exact Iff.rfl
  rw [hpred]
  refine (pairwise_cleanedEntriesL _).imp ?_
  intro a b hab hEq
  apply hab
  have hdata : (lowerS (String.mk a)).data = (lowerS (String.mk b)).data := by rw [hEq]
  exact hdata

theorem preFinal_shape (raws : List String) :
    preFinal raws = ["?"] ∨ (preFinal raws).Sublist (cleanedEntries raws) := by
  simp only [preFinal]
  by_cases h1 : MAX_ENTRIES_PER_DAY < (cleanedEntries raws).length
  · rw [if_pos h1]
    by_cases h0 : ((cleanedEntries raws).take MAX_ENTRIES_PER_DAY).length = 0 ∧ raws.length = 0
    · rw [if_pos h0]; exact Or.inl rfl
    · rw [if_neg h0]; exact Or.inr (List.take_sublist _ _)
  · rw [if_neg h1]
    by_cases h0 : (cleanedEntries raws).length = 0 ∧ raws.length = 0
    · rw [if_pos h0]; exact Or.inl rfl
    · rw [if_neg h0]; exact Or.inr (List.Sublist.refl _)

theorem weekendFilter_shape (wd : String) (l : List String) :
    weekendFilter wd l = l ∨ weekendFilter wd l = l.filter schulFree := by
  unfold weekendFilter
  by_cases hw : wd = "Samstag" ∨ wd = "Sonntag"
  · rw [if_pos hw]
    by_cases ha : l.any pubTrig = true
    · rw [if_pos ha]; exact Or.inr rfl
    · rw [if_neg ha]; exact Or.inl rfl
  · rw [if_neg hw]; exact Or.inl rfl

theorem weekendFilter_of_any_false (wd : String) {l : List String}
    (h : l.any pubTrig = false) : weekendFilter wd l = l := by
  unfold weekendFilter
  by_cases hw : wd = "Samstag" ∨ wd = "Sonntag"
  · rw [if_pos hw, h]
    simp
  · rw [if_neg hw]

/-! ### The remaining claim theorems -/

/-- C2 (amended): the first rule of the description table fires whenever the
suffix contains a restricted-surface marker (`eingeschr` covers all three
markers of the disjunction), regardless of any public-swimming marker, and
maps to the combined label. -/
theorem c2_restricted_marker_rule :
    ∀ d : String, containsS (lowerS d) "eingeschr" = true →
      descRule d = "öffentl. Schwimmen (eingeschr. WF)" := by
  intro d h
  have h' : containsL (lowerL d.data) "eingeschr".data = true := h
  have hne : (lowerL d.data).isEmpty = false := by
    cases hl : lowerL d.data with
    | nil => rw [hl] at h'; exact absurd h' (by decide)
    | cons a t => rfl
  simp only [descRule, descRuleL]
  rw [hne, h']
  simp

/-- C2 witness: a suffix carrying the restricted-surface marker together
with a school keyword still gets the first rule's label, showing the
first-match-wins priority over the school/club/course rule. -/
theorem c2_witness :
    descRule "eingeschränkte Wasserfläche, nur Schulbetrieb" =
      "öffentl. Schwimmen (eingeschr. WF)" :=
  c2_restricted_marker_rule "eingeschränkte Wasserfläche, nur Schulbetrieb" (by decide)

/-- C3 (amended): the fixed scraper processes at most the first occurrence
of each weekday token (the chunk list never has more than one element); at
the counterexample text, Montag's chunk stops at the Dienstag token while
Dienstag's chunk runs to the end of the text, across the second Montag
token, because only later-in-week tokens can terminate a chunk. -/
theorem c3_first_occurrence_only :
    (∀ (text : String) (i : Nat), (codeDayChunks text i).length ≤ 1) ∧
      codeDayChunks "Montag a Dienstag b Montag c" 0 = ["Montag a "] ∧
      codeDayChunks "Montag a Dienstag b Montag c" 1 = ["Dienstag b Montag c"] := by
  refine ⟨?_, by decide, by decide⟩
  intro text i
  unfold codeDayChunks
  cases hdrop : WEEKDAYS.drop i with
  | nil => simp
  | cons wd future =>
    show (match findWB wd.data text.data 0 with
      | none => ([] : List String)
      | some p =>
        [String.mk ((text.data.drop p).take
          (firstFutureEnd future text.data (p + wd.length) - p))]).length ≤ 1
    cases findWB wd.data text.data 0 with
    | none => simp
    | some p => simp

/-- C4 (amended, scraper part): in the fallback extractor a chunk containing
the closed keyword yields exactly the closed sentinel. -/
theorem c4_closed_chunk :
    ∀ (wd chunk : String), containsS (lowerS chunk) "geschlossen" = true →
      chunkEntries wd chunk = ["Geschlossen"] := by
  intro wd chunk h
  unfold chunkEntries
  rw [if_pos h]

/-- C4 witness. -/
theorem c4_witness : chunkEntries "Montag" "Montag leider geschlossen" = ["Geschlossen"] :=
  c4_closed_chunk "Montag" "Montag leider geschlossen" (by decide)

/-- C5: a weekday with no raw entries at all yields the unknown sentinel
`["?"]`; a weekday whose raw entries all fail extraction or validation
yields the empty list. -/
theorem c5_unknown_vs_empty :
    (∀ wd, cleanDay wd [] = ["?"]) ∧
      ∀ wd raws, raws ≠ [] → cleanedEntries raws = [] → cleanDay wd raws = [] := by
  constructor
  · intro wd
    have hp : preFinal [] = ["?"] := by decide
    show List.insertionSort rStart (weekendFilter wd (preFinal [])) = ["?"]
    rw [hp, weekendFilter_of_any_false wd (by decide)]
    decide
  · intro wd raws hne hce
    have hp : preFinal raws = [] := by
      simp only [preFinal, hce]
      rw [if_neg (by decide : ¬(MAX_ENTRIES_PER_DAY < ([] : List String).length))]
      have hch : ¬(([] : List String).length = 0 ∧ raws.length = 0) := by
        rintro ⟨-, h2⟩
        exact hne (List.length_eq_zero.mp h2)
      rw [if_neg hch]
    show List.insertionSort rStart (weekendFilter wd (preFinal raws)) = []
    rw [hp, weekendFilter_of_any_false wd (by decide)]
    rfl

/-- C5 witness: no raw data gives the unknown sentinel; a raw entry that
fails validation gives the empty list. -/
theorem c5_witness : cleanDay "Dienstag" [] = ["?"] ∧ cleanDay "Dienstag" ["xx"] = [] :=
  ⟨c5_unknown_vs_empty.1 "Dienstag",
    c5_unknown_vs_empty.2 "Dienstag" ["xx"] (by decide) (by decide)⟩

/-- C6 (amended): when the validated, deduplicated list exceeds the cap it
is truncated to its first `MAX_ENTRIES_PER_DAY` entries before the weekend
filter and the start-time sort; on Monday through Friday the final output is
exactly those first entries reordered by the sort (a permutation of the
taken prefix, of length 4). -/
theorem c6_cap_enforcement :
    ∀ wd raws, wd ∈ (["Montag", "Dienstag", "Mittwoch", "Donnerstag", "Freitag"] : List String) →
      MAX_ENTRIES_PER_DAY < (cleanedEntries raws).length →
      (cleanDay wd raws).length = MAX_ENTRIES_PER_DAY ∧
        (cleanDay wd raws).Perm ((cleanedEntries raws).take MAX_ENTRIES_PER_DAY) := by
  intro wd raws hwd h4
  have hnw : ¬(wd = "Samstag" ∨ wd = "Sonntag") := by
    fin_cases hwd <;> decide
  have hp : preFinal raws = (cleanedEntries raws).take MAX_ENTRIES_PER_DAY := by
    simp only [preFinal]
    rw [if_pos h4]
    have h0 : ¬(((cleanedEntries raws).take MAX_ENTRIES_PER_DAY).length = 0 ∧ raws.length = 0) := by
      rintro ⟨h1, -⟩
      rw [List.length_take] at h1
      rcases Nat.min_eq_zero_iff.mp h1 with h | h
      · exact absurd h (by decide)
      · omega
    rw [if_neg h0]
  have hw : weekendFilter wd (preFinal raws) = preFinal raws := by
    unfold weekendFilter
    rw [if_neg hnw]
  constructor
  · show (List.insertionSort rStart (weekendFilter wd (preFinal raws))).length = _
    rw [hw, hp, (List.perm_insertionSort rStart _).length_eq, List.length_take]
    omega
  · show (List.insertionSort rStart (weekendFilter wd (preFinal raws))).Perm _
    rw [hw, hp]
    exact List.perm_insertionSort rStart _

/-- C6 witness: six valid ascending entries on a Monday. -/
theorem c6_witness :
    (cleanDay "Montag" rawAsc6).length = MAX_ENTRIES_PER_DAY ∧
      (cleanDay "Montag" rawAsc6).Perm ((cleanedEntries rawAsc6).take MAX_ENTRIES_PER_DAY) :=
  c6_cap_enforcement "Montag" rawAsc6 (by decide) (by decide)

/-- C7: on Saturday and Sunday, as soon as some entry of the capped list
carries the public-swimming trigger, every entry containing the restricted
marker `nur schul` is removed (the final list is all `schulFree`); Monday
through Friday are never filtered - their output is a permutation (the
sort) of the capped list. -/
theorem c7_weekend_override :
    (∀ wd raws, (wd = "Samstag" ∨ wd = "Sonntag") → (preFinal raws).any pubTrig = true →
        (cleanDay wd raws).all schulFree = true) ∧
      (∀ wd raws, wd ∈ (["Montag", "Dienstag", "Mittwoch", "Donnerstag", "Freitag"] : List String) →
        (cleanDay wd raws).Perm (preFinal raws)) ∧
      cleanDay "Samstag" rawWeekend = ["09:00 - 17:00 öffentl. Schwimmen"] := by
  refine ⟨?_, ?_, by decide⟩
  · intro wd raws hw ha
    show (List.insertionSort rStart (weekendFilter wd (preFinal raws))).all schulFree = true
    unfold weekendFilter
    rw [if_pos hw, if_pos ha, List.all_eq_true]
    intro e he
    rw [List.mem_insertionSort] at he
    exact (List.mem_filter.mp he).2
  · intro wd raws hwd
    have hnw : ¬(wd = "Samstag" ∨ wd = "Sonntag") := by
      fin_cases hwd <;> decide
    show (List.insertionSort rStart (weekendFilter wd (preFinal raws))).Perm _
    unfold weekendFilter
    rw [if_neg hnw]
    exact List.perm_insertionSort rStart _

/-- C7 witness: the spec's weekend example on a Saturday. -/
theorem c7_witness : (cleanDay "Samstag" rawWeekend).all schulFree = true :=
  c7_weekend_override.1 "Samstag" rawWeekend (Or.inl rfl) (by decide)

/-- C8 (amended): every day's final list is stably sorted ascending by the
parsed start minute-of-day, where an entry without a parseable `H:MM`
occurrence gets the key `24*60`; entries keyed below `24*60` therefore
precede the unparseable ones, but a parseable start with hour `≥ 24`
(accepted by the validator) sorts after them.  Stability: any pair already
in key order before the sort keeps its relative order in the output. -/
theorem c8_sorted_by_start :
    (∀ wd raws, List.Sorted rStart (cleanDay wd raws)) ∧
      ∀ wd raws a b, rStart a b → [a, b].Sublist (weekendFilter wd (preFinal raws)) →
        [a, b].Sublist (cleanDay wd raws) :=
  ⟨fun _ _ => List.sorted_insertionSort rStart _,
    fun _ _ _ _ hab hsub => List.pair_sublist_insertionSort hab hsub⟩

/-- C8 witness: two distinct entries with the same start key keep their
input order. -/
theorem c8_witness :
    List.Sorted rStart (cleanDay "Montag" ["10:00 - 11:00 Uhr abc", "10:00 - 12:00 Uhr xyz"]) ∧
      ["10:00 - 11:00 Uhr", "10:00 - 12:00 Uhr"].Sublist
        (cleanDay "Montag" ["10:00 - 11:00 Uhr abc", "10:00 - 12:00 Uhr xyz"]) :=
  ⟨c8_sorted_by_start.1 "Montag" ["10:00 - 11:00 Uhr abc", "10:00 - 12:00 Uhr xyz"],
    c8_sorted_by_start.2 "Montag" ["10:00 - 11:00 Uhr abc", "10:00 - 12:00 Uhr xyz"]
      "10:00 - 11:00 Uhr" "10:00 - 12:00 Uhr" (by decide) (by decide)⟩

/-- C9 (amended): all output entries other than the closed sentinel are
pairwise distinct under case-insensitive comparison (first occurrence kept);
the sentinel bypasses the dedup set and may repeat.  The spec's dedup
example collapses to a single canonical entry, and when two entries share
the case-insensitive key but differ in case, the first one is kept. -/
theorem c9_dedup :
    (∀ wd raws, ((cleanDay wd raws).filter (fun e => !(e == "Geschlossen"))).Pairwise
        (fun a b => lowerS a ≠ lowerS b)) ∧
      cleanDay "Montag" ["10:00-12:00 Uhr Öffentlich", "10:00 - 12:00 UHR öffentlich"] =
        ["10:00 - 12:00 öffentl. Schwimmen"] ∧
      cleanDay "Montag" ["10:00 - 11:00 Uhr Abc def", "10:00 - 11:00 UHR ABC def"] =
        ["10:00 - 11:00 Uhr Abc"] := by
  constructor
  · intro wd raws
    have hbase := pairwise_cleanedEntries raws
    have hpre : ((preFinal raws).filter (fun e => !(e == "Geschlossen"))).Pairwise
        (fun a b => lowerS a ≠ lowerS b) := by
      rcases preFinal_shape raws with h | h
      · rw [h]
        have : (["?"] : List String).filter (fun e => !(e == "Geschlossen")) = ["?"] := by decide
        rw [this]
        exact List.pairwise_singleton _ _
      · exact List.Pairwise.sublist (List.Sublist.filter _ h) hbase
    have hfil : (((weekendFilter wd (preFinal raws))).filter
        (fun e => !(e == "Geschlossen"))).Pairwise (fun a b => lowerS a ≠ lowerS b) := by
      rcases weekendFilter_shape wd (preFinal raws) with h | h
      · rw [h]; exact hpre
      · rw [h]
        exact List.Pairwise.sublist (List.Sublist.filter _ (List.filter_sublist _)) hpre
    have hperm : ((cleanDay wd raws).filter (fun e => !(e == "Geschlossen"))).Perm
        ((weekendFilter wd (preFinal raws)).filter (fun e => !(e == "Geschlossen"))) :=
      List.Perm.filter _ (List.perm_insertionSort rStart _)
    exact (List.Perm.pairwise_iff (fun hxy h2 => hxy h2.symm) hperm).mpr hfil
  constructor
  · decide
  · decide

end BBB

